import Mathlib

/-!
Shallow embedding of the symmetry-aware tile-suggestion voting engine of
`tests/check_tile_suggestion.py`.  Python integers are modelled as `Int`,
Python lists as `List`, Python (insertion-ordered) dicts as association
lists (`List (key × value)`), and Python `assert` / `KeyError` failures as
`Option` results (`none` = the computation aborts).
-/

set_option autoImplicit false

namespace TileSuggestion

/-- A 4-edge tile: the Python code represents it as a list of exactly four
signed integer labels `[e0, e1, e2, e3]`. -/
structure Tile where
  e0 : Int
  e1 : Int
  e2 : Int
  e3 : Int
deriving DecidableEq, Repr

/-- The `Transform` dataclass: `flipX`, `flipY` booleans and an integer
`rotation`. -/
structure Transform where
  flipX : Bool
  flipY : Bool
  rotation : Int
deriving DecidableEq, Repr

/-- `Transform.isIdentity`: no flips and rotation 0. -/
def Transform.isIdentity (t : Transform) : Bool :=
  !t.flipX && !t.flipY && t.rotation == 0

/-- The `Score` dataclass, fields in source order:
`total_votes`, `untransformed_votes`, `flipped_edges`. -/
structure Score where
  total_votes : Int
  untransformed_votes : Int
  flipped_edges : Int
deriving DecidableEq, Repr

/-- `Score.__gt__`: the chain of comparisons exactly as written in the
source (total votes, then flipped edges reversed, then untransformed
votes). -/
def Score.gtb (a b : Score) : Bool :=
  if a.total_votes > b.total_votes then true
  else if a.total_votes < b.total_votes then false
  else if a.flipped_edges < b.flipped_edges then true
  else if a.flipped_edges > b.flipped_edges then false
  else if a.untransformed_votes > b.untransformed_votes then true
  else if a.untransformed_votes < b.untransformed_votes then false
  else false

/-- `computeAllTransforms`: successive list-comprehension expansions
starting from the identity transform, exactly as in the source. -/
def computeAllTransforms : List Transform :=
  let a0 : List Transform := [⟨false, false, 0⟩]
  let a1 := a0.flatMap (fun tr => [tr, { tr with flipX := true }])
  let a2 := a1.flatMap (fun tr => [tr, { tr with flipY := true }])
  a2.flatMap (fun tr => (List.range 4).map (fun r => { tr with rotation := (r : Int) }))

/-- `computeAllTransforms_check`: direct triple iteration over
`flipX ∈ [False,True]`, `flipY ∈ [False,True]`, `rotation ∈ range(4)`. -/
def computeAllTransforms_check : List Transform :=
  [false, true].flatMap (fun fx =>
    [false, true].flatMap (fun fy =>
      (List.range 4).map (fun rot => ⟨fx, fy, (rot : Int)⟩)))

/-- The module-level `all_transforms` value. -/
def all_transforms : List Transform := computeAllTransforms

/-- Python `str` on an integer (decimal representation, `-` sign for
negative values); Lean's `toString` on `Int` agrees with it. -/
def pyStr (n : Int) : String := toString n

/-- `hash_tile`: `"".join(map(str, tile))` — concatenation of the decimal
representations of the four labels with no separator. -/
def hash_tile (t : Tile) : String :=
  pyStr t.e0 ++ pyStr t.e1 ++ pyStr t.e2 ++ pyStr t.e3

/-- The inner `flipX` helper of `transform_tile`:
`[+t[2], -t[1], +t[0], -t[3]]`. -/
def flipXTile (t : Tile) : Tile := ⟨t.e2, -t.e1, t.e0, -t.e3⟩

/-- The inner `flipY` helper of `transform_tile`:
`[-t[0], +t[3], -t[2], +t[1]]`. -/
def flipYTile (t : Tile) : Tile := ⟨-t.e0, t.e3, -t.e2, t.e1⟩

/-- Python indexing `tile[i % 4]` (Python `%` on a positive modulus agrees
with Lean's `Int.emod`). -/
def tileGet (t : Tile) (i : Int) : Int :=
  if i % 4 = 0 then t.e0
  else if i % 4 = 1 then t.e1
  else if i % 4 = 2 then t.e2
  else t.e3

/-- The inner `rotate` helper of `transform_tile`:
`[tile[(0+r)%4], tile[(1+r)%4], tile[(2+r)%4], tile[(3+r)%4]]`. -/
def rotateTile (t : Tile) (r : Int) : Tile :=
  ⟨tileGet t (0 + r), tileGet t (1 + r), tileGet t (2 + r), tileGet t (3 + r)⟩

/-- `transform_tile`: conditional flip across X, then conditional flip
across Y, then rotation — the fixed composition order of the source. -/
def transform_tile (t : Tile) (tr : Transform) : Tile :=
  let t1 := if tr.flipX then flipXTile t else t
  let t2 := if tr.flipY then flipYTile t1 else t1
  rotateTile t2 tr.rotation

/-- A neighborhood: four admissible-label sets, one per slot, as the
4-element list-of-lists the Python code indexes with `[0]..[3]`. -/
structure Neighborhood where
  s0 : List Int
  s1 : List Int
  s2 : List Int
  s3 : List Int
deriving DecidableEq, Repr

/-- Association-list lookup (Python dict access by key), first match. -/
def alookup {κ β : Type} [DecidableEq κ] : List (κ × β) → κ → Option β
  | [], _ => none
  | (k', v) :: rest, k => if k' = k then some v else alookup rest k

/-- Association-list defaulting update (Python `defaultdict` mutation
`m[k] = f(m[k])` with default `d`): updates the first entry with key `k`,
or appends `(k, f d)` when the key is new — matching dict insertion
order. -/
def aupdate {κ β : Type} [DecidableEq κ] : List (κ × β) → κ → (β → β) → β → List (κ × β)
  | [], k, f, d => [(k, f d)]
  | (k', v) :: rest, k, f, d =>
    if k' = k then (k', f v) :: rest else (k', v) :: aupdate rest k f d

/-- Association-list assignment (Python `m[k] = v`): replaces the value of
the first entry with key `k`, or appends when the key is new. -/
def aset {κ β : Type} [DecidableEq κ] : List (κ × β) → κ → β → List (κ × β)
  | [], k, v => [(k, v)]
  | (k', v') :: rest, k, v =>
    if k' = k then (k', v) :: rest else (k', v') :: aset rest k v

/-- The per-signature per-transform vote table: `votes` in the source. -/
abbrev VotesMap := List (String × List (Transform × Int))

/-- The per-signature consolidated counts: `consolidated_votes`. -/
abbrev CountMap := List (String × Int)

/-- The signature → representative tile table: `tile_map`. -/
abbrev TileMap := List (String × Tile)

/-- The candidate-generation loops of `consolidateVotes`: for each
neighborhood, four nested loops (slot 0 outermost, slot 3 innermost)
append the element-wise negation of the chosen labels. -/
def consolidatePossibilities (neighborhood_labels : List Neighborhood) : List Tile :=
  neighborhood_labels.foldl (fun acc nb =>
    nb.s0.foldl (fun acc l0 =>
      nb.s1.foldl (fun acc l1 =>
        nb.s2.foldl (fun acc l2 =>
          nb.s3.foldl (fun acc l3 =>
            acc ++ [⟨-l0, -l1, -l2, -l3⟩]) acc) acc) acc) acc) []

/-- The `all_possibilities` loop of `consolidateVotes`: every candidate
paired with every one of the 16 transforms, transform applied. -/
def allPossibilities (possibilities : List Tile) : List (Tile × Transform) :=
  possibilities.foldl (fun acc tile =>
    all_transforms.foldl (fun acc tr => acc ++ [(transform_tile tile tr, tr)]) acc) []

/-- One iteration of the accumulation loop of `consolidateVotes`:
`votes[k][tr] += 1`, `consolidated_votes[k] += 1`, `tile_map[k] = tile`. -/
def consolidateStep (st : VotesMap × CountMap × TileMap) (p : Tile × Transform) :
    VotesMap × CountMap × TileMap :=
  let k := hash_tile p.1
  (aupdate st.1 k (fun inner => aupdate inner p.2 (· + 1) 0) [],
   aupdate st.2.1 k (· + 1) 0,
   aset st.2.2 k p.1)

/-- `consolidateVotes`: candidate generation, transform expansion, then
the accumulation loop over all (tile, transform) pairs. -/
def consolidateVotes (neighborhood_labels : List Neighborhood) :
    VotesMap × CountMap × TileMap :=
  (allPossibilities (consolidatePossibilities neighborhood_labels)).foldl
    consolidateStep ([], [], [])

/-- The running total `score.total_votes += subcount` loop of
`findBest2`. -/
def sumCounts (es : List (Transform × Int)) : Int :=
  es.foldl (fun s e => s + e.2) 0

/-- The `flipped_edges` loop of `findBest2`: number of negative labels of
the representative tile. -/
def countFlipped (t : Tile) : Int :=
  (if t.e0 < 0 then 1 else 0) + (if t.e1 < 0 then 1 else 0) +
  (if t.e2 < 0 then 1 else 0) + (if t.e3 < 0 then 1 else 0)

/-- The per-signature body of the `findBest2` loop: `tile_map[k]` access
(a missing key is a Python `KeyError`, modelled as `none`), the
`flipped_edges` count, the per-transform total and the
`untransformed_votes` assignment (the source assigns `count`, the
consolidated total, when the identity transform appears), and the
`assert score.total_votes == count` (failure modelled as `none`). -/
def scoreOf (votes : VotesMap) (tm : TileMap) (k : String) (count : Int) : Option Score :=
  match alookup tm k with
  | none => none
  | some tile =>
    let entries := (alookup votes k).getD []
    let total := sumCounts entries
    let untransformed := entries.foldl (fun u e => if e.1.isIdentity then count else u) 0
    if total = count then some ⟨total, untransformed, countFlipped tile⟩ else none

/-- Python `best_score is None or score > best_score`. -/
def beats (s : Score) (o : Option Score) : Bool :=
  match o with
  | none => true
  | some s' => Score.gtb s s'

/-- The best / second-best tracking state of `findBest2`. -/
abbrev SelState := Option String × Option Score × Option String × Option Score

/-- One iteration of the selection loop of `findBest2`. -/
def findBest2Step (votes : VotesMap) (tm : TileMap) (st : SelState)
    (kc : String × Int) : Option SelState :=
  match scoreOf votes tm kc.1 kc.2 with
  | none => none
  | some score =>
    if beats score st.2.1 then
      some (some kc.1, some score, st.1, st.2.1)
    else if beats score st.2.2.2 then
      some (st.1, st.2.1, some kc.1, some score)
    else some st

/-- The selection loop of `findBest2` over `consolidated_votes.items()`. -/
def findBest2Go (votes : VotesMap) (tm : TileMap) :
    SelState → CountMap → Option SelState
  | st, [] => some st
  | st, kc :: rest =>
    match findBest2Step votes tm st kc with
    | none => none
    | some st' => findBest2Go votes tm st' rest

/-- `findBest2`: scans the consolidated votes in insertion order and
returns `(best, best_score, second_best, second_best_score)`; `none`
models an assertion failure or a `KeyError` inside the loop. -/
def findBest2 (votes : VotesMap) (consolidated_votes : CountMap) (tile_map : TileMap) :
    Option SelState :=
  findBest2Go votes tile_map (none, none, none, none) consolidated_votes

/-- One record of the external vote dump: a tile and its per-transform
counts. -/
structure VoteRecord where
  tile : Tile
  counts : List (Transform × Int)
deriving DecidableEq, Repr

/-- The inner `for entry in v["counts"]` loop of `importVotes`: the assert
`check_votes[k][tr] == 0` (failure = `none`), then
`check_votes[k][tr] += count` and `check_consolidated_votes[k] += count`. -/
def importEntries (k : String) :
    VotesMap × CountMap → List (Transform × Int) → Option (VotesMap × CountMap)
  | st, [] => some st
  | st, (tr, count) :: rest =>
    let cur := (alookup st.1 k).getD []
    if (alookup cur tr).getD 0 ≠ 0 then none
    else importEntries k
      (aupdate st.1 k (fun inner => aupdate inner tr (· + count) 0) [],
       aupdate st.2 k (· + count) 0) rest

/-- Python defaultdict read access `m[k]`: inserts the key with the
default value 0 when missing (the side effect of the
`check_consolidated_votes[k]` access inside the assert of
`importVotes`). -/
def getOrInsertZero (c : CountMap) (k : String) : CountMap :=
  match alookup c k with
  | some _ => c
  | none => c ++ [(k, 0)]

/-- One record of the `importVotes` loop: `tile_map[k] = tile`, the
defaultdict access `check_consolidated_votes[k]` (which inserts the key
with value 0 when missing), the assert that this value is 0, then the
counts loop. -/
def importRecord (st : VotesMap × CountMap × TileMap) (r : VoteRecord) :
    Option (VotesMap × CountMap × TileMap) :=
  if (alookup (getOrInsertZero st.2.1 (hash_tile r.tile)) (hash_tile r.tile)).getD 0 ≠ 0
  then none
  else
    match importEntries (hash_tile r.tile)
        (st.1, getOrInsertZero st.2.1 (hash_tile r.tile)) r.counts with
    | none => none
    | some (v', c') => some (v', c', aset st.2.2 (hash_tile r.tile) r.tile)

/-- The record loop of `importVotes`. -/
def importVotesGo :
    VotesMap × CountMap × TileMap → List VoteRecord → Option (VotesMap × CountMap × TileMap)
  | st, [] => some st
  | st, r :: rest =>
    match importRecord st r with
    | none => none
    | some st' => importVotesGo st' rest

/-- `importVotes`: rebuilds `check_votes` and `check_consolidated_votes`
from the raw records, mutating the passed `tile_map`; `none` models an
assertion failure. -/
def importVotes (raw_votes : List VoteRecord) (tile_map : TileMap) :
    Option (VotesMap × CountMap × TileMap) :=
  importVotesGo ([], [], tile_map) raw_votes

/-- Modelled from the spec: the export of a consolidated vote map to
`VoteRecord`s is not part of the supplied source (the JSON dump is
produced by the external engine); per the spec each record carries the
signature's representative tile and its list of `(transform, count)`
pairs, in the vote map's order. -/
def exportVotes (votes : VotesMap) (tile_map : TileMap) : List VoteRecord :=
  votes.filterMap (fun kv => (alookup tile_map kv.1).map (fun t => ⟨t, kv.2⟩))

/-- Formalisation of the spec wording for the candidate generator
(cartesian product across the four slots, slot 0 outermost, slot 3
innermost, each candidate the element-wise negation of the chosen
labels); compared against the nested accumulating loops of
`consolidatePossibilities`. -/
def nbCandidates (nb : Neighborhood) : List Tile :=
  nb.s0.flatMap (fun l0 => nb.s1.flatMap (fun l1 =>
    nb.s2.flatMap (fun l2 => nb.s3.map (fun l3 => ⟨-l0, -l1, -l2, -l3⟩))))

/-- Numeric value of a decimal digit character. -/
def digitVal (c : Char) : Int := ((c.toNat - '0'.toNat : Nat) : Int)

/-- Reads one Python-`str`-encoded label of single-digit magnitude from
the front of a character list: a leading `-` takes the next character as
a negated digit, otherwise one digit is read. -/
def decodeTok : List Char → Option (Int × List Char)
  | '-' :: c :: rest => some (-(digitVal c), rest)
  | c :: rest => some (digitVal c, rest)
  | [] => none

/-- All four labels of the tile have magnitude at most 9 (their decimal
representations are a single digit, possibly signed). -/
def smallTile (t : Tile) : Prop :=
  -9 ≤ t.e0 ∧ t.e0 ≤ 9 ∧ -9 ≤ t.e1 ∧ t.e1 ≤ 9 ∧
  -9 ≤ t.e2 ∧ t.e2 ≤ 9 ∧ -9 ≤ t.e3 ∧ t.e3 ≤ 9

instance (t : Tile) : Decidable (smallTile t) := by
  unfold smallTile
  infer_instance

/-! ### Association-list lemmas -/

section AList

variable {κ β γ : Type} [DecidableEq κ]

theorem alookup_append_none {xs : List (κ × β)} {k : κ} (ys : List (κ × β))
    (h : alookup xs k = none) : alookup (xs ++ ys) k = alookup ys k := by
  induction xs with
  | nil => simp
  | cons p rest ih =>
    obtain ⟨a, b⟩ := p
    by_cases ha : a = k
    · simp [alookup, ha] at h
    · simp only [alookup, if_neg ha] at h
      simpa [alookup, ha] using ih h

theorem alookup_append_some {xs : List (κ × β)} {k : κ} {v : β} (ys : List (κ × β))
    (h : alookup xs k = some v) : alookup (xs ++ ys) k = some v := by
  induction xs with
  | nil => simp [alookup] at h
  | cons p rest ih =>
    obtain ⟨a, b⟩ := p
    by_cases ha : a = k
    · simp only [alookup, if_pos ha] at h
      simp [alookup, ha, h]
    · simp only [alookup, if_neg ha] at h
      simpa [alookup, ha] using ih h

theorem alookup_aupdate_self (m : List (κ × β)) (k : κ) (f : β → β) (d : β) :
    alookup (aupdate m k f d) k = some (f ((alookup m k).getD d)) := by
  induction m with
  | nil => simp [alookup, aupdate]
  | cons p rest ih =>
    obtain ⟨a, b⟩ := p
    by_cases ha : a = k
    · simp [alookup, aupdate, ha]
    · simp [alookup, aupdate, ha, ih]

theorem alookup_aupdate_ne {k' k : κ} (m : List (κ × β)) (f : β → β) (d : β)
    (h : k' ≠ k) : alookup (aupdate m k f d) k' = alookup m k' := by
  induction m with
  | nil => simp [aupdate, alookup, Ne.symm h]
  | cons p rest ih =>
    obtain ⟨a, b⟩ := p
    by_cases ha : a = k
    · subst ha
      simp [aupdate, alookup, Ne.symm h]
    · by_cases hb : a = k'
      · subst hb
        simp [aupdate, alookup, h]
      · simp [aupdate, alookup, ha, hb, ih]

theorem aupdate_absent {m : List (κ × β)} {k : κ} (f : β → β) (d : β)
    (h : alookup m k = none) : aupdate m k f d = m ++ [(k, f d)] := by
  induction m with
  | nil => simp [aupdate]
  | cons p rest ih =>
    obtain ⟨a, b⟩ := p
    by_cases ha : a = k
    · simp [alookup, ha] at h
    · simp only [alookup, if_neg ha] at h
      simp [aupdate, ha, ih h]

theorem aupdate_present {m : List (κ × β)} {k : κ} {v : β} (f : β → β) (d : β)
    (h : alookup m k = some v) : aupdate m k f d = aset m k (f v) := by
  induction m with
  | nil => simp [alookup] at h
  | cons p rest ih =>
    obtain ⟨a, b⟩ := p
    by_cases ha : a = k
    · simp only [alookup, if_pos ha] at h
      simp only [Option.some.injEq] at h
      subst h
      simp [aupdate, aset, ha]
    · simp only [alookup, if_neg ha] at h
      simp [aupdate, aset, ha, ih h]

theorem alookup_aset_self (m : List (κ × β)) (k : κ) (v : β) :
    alookup (aset m k v) k = some v := by
  induction m with
  | nil => simp [alookup, aset]
  | cons p rest ih =>
    obtain ⟨a, b⟩ := p
    by_cases ha : a = k
    · simp [alookup, aset, ha]
    · simp [alookup, aset, ha, ih]

theorem alookup_aset_ne {k' k : κ} (m : List (κ × β)) (v : β)
    (h : k' ≠ k) : alookup (aset m k v) k' = alookup m k' := by
  induction m with
  | nil => simp [aset, alookup, Ne.symm h]
  | cons p rest ih =>
    obtain ⟨a, b⟩ := p
    by_cases ha : a = k
    · subst ha
      simp [aset, alookup, Ne.symm h]
    · by_cases hb : a = k'
      · subst hb
        simp [aset, alookup, h]
      · simp [aset, alookup, ha, hb, ih]

theorem aset_lookup_self {m : List (κ × β)} {k : κ} {v : β}
    (h : alookup m k = some v) : aset m k v = m := by
  induction m with
  | nil => simp [alookup] at h
  | cons p rest ih =>
    obtain ⟨a, b⟩ := p
    by_cases ha : a = k
    · simp only [alookup, if_pos ha] at h
      simp only [Option.some.injEq] at h
      subst h
      simp [aset, ha]
    · simp only [alookup, if_neg ha] at h
      simp [aset, ha, ih h]

theorem aset_absent {m : List (κ × β)} {k : κ} (v : β)
    (h : alookup m k = none) : aset m k v = m ++ [(k, v)] := by
  induction m with
  | nil => simp [aset]
  | cons p rest ih =>
    obtain ⟨a, b⟩ := p
    by_cases ha : a = k
    · simp [alookup, ha] at h
    · simp only [alookup, if_neg ha] at h
      simp [aset, ha, ih h]

theorem aset_aset (m : List (κ × β)) (k : κ) (a b : β) :
    aset (aset m k a) k b = aset m k b := by
  induction m with
  | nil => simp [aset]
  | cons p rest ih =>
    obtain ⟨x, y⟩ := p
    by_cases hx : x = k
    · simp [aset, hx]
    · simp [aset, hx, ih]

theorem aset_append_absent {m : List (κ × β)} {k : κ} (a b : β)
    (h : alookup m k = none) : aset (m ++ [(k, a)]) k b = m ++ [(k, b)] := by
  induction m with
  | nil => simp [aset]
  | cons p rest ih =>
    obtain ⟨x, y⟩ := p
    by_cases hx : x = k
    · simp [alookup, hx] at h
    · simp only [alookup, if_neg hx] at h
      simp [aset, hx, ih h]

theorem map_fst_aupdate (m : List (κ × β)) (k : κ) (f : β → β) (d : β) :
    (aupdate m k f d).map Prod.fst =
      if k ∈ m.map Prod.fst then m.map Prod.fst else m.map Prod.fst ++ [k] := by
  induction m with
  | nil => simp [aupdate]
  | cons p rest ih =>
    obtain ⟨a, b⟩ := p
    by_cases ha : a = k
    · simp [aupdate, ha]
    · simp only [aupdate, if_neg ha, List.map_cons, ih]
      by_cases hm : k ∈ rest.map Prod.fst
      · simp [hm, Ne.symm ha]
      · simp [hm, Ne.symm ha]

theorem map_fst_aset (m : List (κ × β)) (k : κ) (v : β) :
    (aset m k v).map Prod.fst =
      if k ∈ m.map Prod.fst then m.map Prod.fst else m.map Prod.fst ++ [k] := by
  induction m with
  | nil => simp [aset]
  | cons p rest ih =>
    obtain ⟨a, b⟩ := p
    by_cases ha : a = k
    · simp [aset, ha]
    · simp only [aset, if_neg ha, List.map_cons, ih]
      by_cases hm : k ∈ rest.map Prod.fst
      · simp [hm, Ne.symm ha]
      · simp [hm, Ne.symm ha]

theorem alookup_eq_none_iff (m : List (κ × β)) (k : κ) :
    alookup m k = none ↔ k ∉ m.map Prod.fst := by
  induction m with
  | nil => simp [alookup]
  | cons p rest ih =>
    obtain ⟨a, b⟩ := p
    by_cases ha : a = k
    · simp [alookup, ha]
    · simp [alookup, ha, ih, Ne.symm ha]

theorem alookup_mem {m : List (κ × β)} {k : κ} {v : β}
    (h : alookup m k = some v) : (k, v) ∈ m := by
  induction m with
  | nil => simp [alookup] at h
  | cons p rest ih =>
    obtain ⟨a, b⟩ := p
    by_cases ha : a = k
    · simp only [alookup, if_pos ha] at h
      simp only [Option.some.injEq] at h
      subst h
      subst ha
      exact List.mem_cons_self _ _
    · simp only [alookup, if_neg ha] at h
      exact List.mem_cons_of_mem _ (ih h)

theorem mem_alookup {m : List (κ × β)} {k : κ} {v : β}
    (hn : (m.map Prod.fst).Nodup) (h : (k, v) ∈ m) : alookup m k = some v := by
  induction m with
  | nil => simp at h
  | cons p rest ih =>
    obtain ⟨a, b⟩ := p
    simp only [List.map_cons, List.nodup_cons] at hn
    rcases List.mem_cons.mp h with h1 | h1
    · simp only [Prod.mk.injEq] at h1
      obtain ⟨rfl, rfl⟩ := h1
      simp [alookup]
    · have hne : a ≠ k := by
        rintro rfl
        exact hn.1 (List.mem_map.mpr ⟨(a, v), h1, rfl⟩)
      simp [alookup, hne, ih hn.2 h1]

theorem aupdate_mem_nodup {m : List (κ × β)} {k : κ} {f : β → β} {d : β}
    {p : κ × β} (hn : (m.map Prod.fst).Nodup) (h : p ∈ aupdate m k f d) :
    p ∈ m ∨ p = (k, f ((alookup m k).getD d)) := by
  induction m with
  | nil =>
    simp only [aupdate, List.mem_singleton] at h
    right
    simpa [alookup] using h
  | cons q rest ih =>
    obtain ⟨a, b⟩ := q
    simp only [List.map_cons, List.nodup_cons] at hn
    by_cases ha : a = k
    · subst ha
      simp only [aupdate, if_pos rfl] at h
      rcases List.mem_cons.mp h with h1 | h1
      · right
        subst h1
        simp [alookup]
      · exact Or.inl (List.mem_cons_of_mem _ h1)
    · simp only [aupdate, if_neg ha] at h
      rcases List.mem_cons.mp h with h1 | h1
      · exact Or.inl (h1 ▸ List.mem_cons_self _ _)
      · rcases ih hn.2 h1 with h2 | h2
        · exact Or.inl (List.mem_cons_of_mem _ h2)
        · right
          simpa [alookup, ha] using h2

theorem aset_mem {m : List (κ × β)} {k : κ} {v : β} {p : κ × β}
    (h : p ∈ aset m k v) : p ∈ m ∨ p = (k, v) := by
  induction m with
  | nil => simp_all [aset]
  | cons q rest ih =>
    obtain ⟨a, b⟩ := q
    by_cases ha : a = k
    · subst ha
      simp only [aset, if_pos rfl] at h
      rcases List.mem_cons.mp h with h1 | h1
      · exact Or.inr h1
      · exact Or.inl (List.mem_cons_of_mem _ h1)
    · simp only [aset, if_neg ha] at h
      rcases List.mem_cons.mp h with h1 | h1
      · exact Or.inl (h1 ▸ List.mem_cons_self _ _)
      · rcases ih h1 with h2 | h2
        · exact Or.inl (List.mem_cons_of_mem _ h2)
        · exact Or.inr h2

theorem aupdate_ne_nil (m : List (κ × β)) (k : κ) (f : β → β) (d : β) :
    aupdate m k f d ≠ [] := by
  cases m with
  | nil => simp [aupdate]
  | cons p rest =>
    obtain ⟨a, b⟩ := p
    by_cases ha : a = k
    · simp [aupdate, ha]
    · simp [aupdate, ha]

theorem alookup_map_value (g : β → γ) (m : List (κ × β)) (k : κ) :
    alookup (m.map (fun kv => (kv.1, g kv.2))) k = (alookup m k).map g := by
  induction m with
  | nil => simp [alookup]
  | cons p rest ih =>
    obtain ⟨a, b⟩ := p
    by_cases ha : a = k
    · simp [alookup, ha]
    · simp [alookup, ha, ih]

end AList

/-! ### Sum-of-counts lemmas -/

theorem foldl_add_counts (es : List (Transform × Int)) (a : Int) :
    es.foldl (fun s e => s + e.2) a = a + (es.map Prod.snd).sum := by
  induction es generalizing a with
  | nil => simp
  | cons e rest ih => simp [ih, add_assoc]

theorem sumCounts_eq_sum (es : List (Transform × Int)) :
    sumCounts es = (es.map Prod.snd).sum := by
  simpa using foldl_add_counts es 0

theorem sumCounts_cons (e : Transform × Int) (es : List (Transform × Int)) :
    sumCounts (e :: es) = e.2 + sumCounts es := by
  simp [sumCounts_eq_sum]

theorem sumCounts_append (es fs : List (Transform × Int)) :
    sumCounts (es ++ fs) = sumCounts es + sumCounts fs := by
  simp [sumCounts_eq_sum]

theorem sumCounts_aupdate_add (es : List (Transform × Int)) (tr : Transform) (c : Int) :
    sumCounts (aupdate es tr (· + c) 0) = sumCounts es + c := by
  induction es with
  | nil => simp [aupdate, sumCounts_eq_sum]
  | cons e rest ih =>
    obtain ⟨tr1, c1⟩ := e
    by_cases h : tr1 = tr
    · simp only [aupdate, if_pos h, sumCounts_cons]
      omega
    · simp only [aupdate, if_neg h, sumCounts_cons, ih]
      omega

/-! ### Consolidation invariant -/

/-- The vote-totals view of a votes map: each signature paired with the
sum of its per-transform counts. -/
def totalsOf (votes : VotesMap) : CountMap :=
  votes.map (fun kv => (kv.1, sumCounts kv.2))

/-- Invariant maintained by the accumulation loop of `consolidateVotes`:
the consolidated counts are exactly the per-signature totals of the votes
map, the tile map has the same keys in the same order, keys are distinct,
every inner transform list has distinct keys and is non-empty, and every
stored representative tile hashes to its own key. -/
def CInv (st : VotesMap × CountMap × TileMap) : Prop :=
  st.2.1 = totalsOf st.1 ∧
  st.2.2.map Prod.fst = st.1.map Prod.fst ∧
  (st.1.map Prod.fst).Nodup ∧
  (∀ p ∈ st.1, (p.2.map Prod.fst).Nodup ∧ p.2 ≠ []) ∧
  (∀ p ∈ st.2.2, hash_tile p.2 = p.1)

theorem nodup_keys_after {κ : Type} [DecidableEq κ] {l : List κ} (k : κ)
    (h : l.Nodup) : (if k ∈ l then l else l ++ [k]).Nodup := by
  split
  · exact h
  · next hm => simp [List.nodup_append, h, hm]

theorem totalsOf_aupdate (votes : VotesMap) (k : String) (tr : Transform) :
    totalsOf (aupdate votes k (fun inner => aupdate inner tr (· + 1) 0) []) =
      aupdate (totalsOf votes) k (· + 1) 0 := by
  induction votes with
  | nil => simp [totalsOf, aupdate, sumCounts_eq_sum]
  | cons p rest ih =>
    obtain ⟨a, es⟩ := p
    by_cases ha : a = k
    · simp [totalsOf, aupdate, ha, sumCounts_aupdate_add]
    · simp only [totalsOf, aupdate, if_neg ha, List.map_cons]
      simp only [totalsOf] at ih
      simp [ih]

theorem cinv_step {st : VotesMap × CountMap × TileMap} (q : Tile × Transform)
    (h : CInv st) : CInv (consolidateStep st q) := by
  obtain ⟨v, c, t⟩ := st
  obtain ⟨hc, hk, hn, hi, hh⟩ := h
  dsimp only at hc hk hn hi hh
  refine ⟨?_, ?_, ?_, ?_, ?_⟩
  · dsimp only [consolidateStep]
    rw [hc, totalsOf_aupdate]
  · dsimp only [consolidateStep]
    rw [map_fst_aset, map_fst_aupdate, hk]
  · dsimp only [consolidateStep]
    rw [map_fst_aupdate]
    exact nodup_keys_after _ hn
  · dsimp only [consolidateStep]
    intro p hp
    rcases aupdate_mem_nodup hn hp with h1 | h1
    · exact hi p h1
    · subst h1
      refine ⟨?_, aupdate_ne_nil _ _ _ _⟩
      rw [map_fst_aupdate]
      apply nodup_keys_after
      cases hl : alookup v (hash_tile q.1) with
      | none => simp
      | some cur =>
        simp only [Option.getD_some]
        exact (hi _ (alookup_mem hl)).1
  · dsimp only [consolidateStep]
    intro p hp
    rcases aset_mem hp with h1 | h1
    · exact hh p h1
    · subst h1; rfl

theorem cinv_foldl (ps : List (Tile × Transform))
    (st : VotesMap × CountMap × TileMap) (h : CInv st) :
    CInv (ps.foldl consolidateStep st) := by
  induction ps generalizing st with
  | nil => exact h
  | cons q rest ih => exact ih _ (cinv_step q h)

theorem cinv_consolidateVotes (nbs : List Neighborhood) :
    CInv (consolidateVotes nbs) := by
  apply cinv_foldl
  refine ⟨rfl, rfl, ?_, ?_, ?_⟩ <;> simp [totalsOf]

/-! ### The selector never fails on consolidation output -/

theorem scoreOf_isSome {v : VotesMap} {t : TileMap}
    (hn : (v.map Prod.fst).Nodup)
    (hk : ∀ k, k ∈ v.map Prod.fst → (alookup t k).isSome)
    {p : String × List (Transform × Int)} (hp : p ∈ v) :
    (scoreOf v t p.1 (sumCounts p.2)).isSome := by
  have hmem : p.1 ∈ v.map Prod.fst := List.mem_map.mpr ⟨p, hp, rfl⟩
  obtain ⟨tile, htile⟩ := Option.isSome_iff_exists.mp (hk p.1 hmem)
  have hv : alookup v p.1 = some p.2 := mem_alookup hn (by simpa using hp)
  simp [scoreOf, htile, hv]

theorem findBest2Step_isSome {v : VotesMap} {t : TileMap} (st : SelState)
    {kc : String × Int} (h : (scoreOf v t kc.1 kc.2).isSome) :
    (findBest2Step v t st kc).isSome := by
  obtain ⟨s, hs⟩ := Option.isSome_iff_exists.mp h
  simp only [findBest2Step, hs]
  split
  · simp
  · split <;> simp

theorem findBest2Go_isSome {v : VotesMap} {t : TileMap} (l : CountMap)
    (h : ∀ kc ∈ l, (scoreOf v t kc.1 kc.2).isSome) (st : SelState) :
    (findBest2Go v t st l).isSome := by
  induction l generalizing st with
  | nil => simp [findBest2Go]
  | cons kc rest ih =>
    obtain ⟨st', hst⟩ := Option.isSome_iff_exists.mp
      (findBest2Step_isSome st (h kc (List.mem_cons_self _ _)))
    simp only [findBest2Go, hst]
    exact ih (fun kc' hk' => h kc' (List.mem_cons_of_mem _ hk')) st' 

/-! ### Import of exported records -/

theorem importEntries_go (k : String) (es : List (Transform × Int)) :
    ∀ (v : VotesMap) (c : CountMap) (cur : List (Transform × Int)) (n : Int),
    alookup v k = some cur → alookup c k = some n →
    (∀ e ∈ es, alookup cur e.1 = none) → (es.map Prod.fst).Nodup →
    importEntries k (v, c) es =
      some (aset v k (cur ++ es), aset c k (n + sumCounts es)) := by
  induction es with
  | nil =>
    intro v c cur n hv hc _ _
    have h1 : n + sumCounts ([] : List (Transform × Int)) = n := by
      simp [sumCounts_eq_sum]
    simp only [importEntries, List.append_nil, h1, aset_lookup_self hv,
      aset_lookup_self hc]
  | cons e rest ih =>
    intro v c cur n hv hc hfresh hnd
    obtain ⟨tr, cnt⟩ := e
    have hfr : alookup cur tr = none := hfresh (tr, cnt) (List.mem_cons_self _ _)
    simp only [importEntries, hv, Option.getD_some, hfr, Option.getD_none]
    rw [if_neg (by simp)]
    have hstep : aupdate cur tr (· + cnt) 0 = cur ++ [(tr, cnt)] := by
      rw [aupdate_absent _ _ hfr]
      simp
    have hv1 : aupdate v k (fun inner => aupdate inner tr (· + cnt) 0) [] =
        aset v k (cur ++ [(tr, cnt)]) := by
      rw [aupdate_present _ _ hv, hstep]
    have hc1 : aupdate c k (· + cnt) 0 = aset c k (n + cnt) :=
      aupdate_present _ _ hc
    rw [hv1, hc1]
    simp only [List.map_cons, List.nodup_cons] at hnd
    have hfresh2 : ∀ e ∈ rest, alookup (cur ++ [(tr, cnt)]) e.1 = none := by
      intro e he
      have h1 : alookup cur e.1 = none := hfresh e (List.mem_cons_of_mem _ he)
      have h2 : ¬ tr = e.1 := by
        rintro rfl
        exact hnd.1 (List.mem_map.mpr ⟨e, he, rfl⟩)
      rw [alookup_append_none _ h1]
      simp [alookup, h2]
    rw [ih _ _ (cur ++ [(tr, cnt)]) (n + cnt) (alookup_aset_self _ _ _)
      (alookup_aset_self _ _ _) hfresh2 hnd.2]
    have e1 : aset (aset v k (cur ++ [(tr, cnt)])) k ((cur ++ [(tr, cnt)]) ++ rest) =
        aset v k (cur ++ (tr, cnt) :: rest) := by
      rw [aset_aset]
      congr 1
      simp
    have e2 : aset (aset c k (n + cnt)) k (n + cnt + sumCounts rest) =
        aset c k (n + sumCounts ((tr, cnt) :: rest)) := by
      rw [aset_aset]
      congr 1
      rw [sumCounts_cons]
      omega
    rw [e1, e2]

theorem importEntries_fresh (k : String) {es : List (Transform × Int)}
    {v : VotesMap} {c : CountMap}
    (hv : alookup v k = none) (hc : alookup c k = some 0)
    (hne : es ≠ []) (hnd : (es.map Prod.fst).Nodup) :
    importEntries k (v, c) es = some (v ++ [(k, es)], aset c k (sumCounts es)) := by
  cases es with
  | nil => exact absurd rfl hne
  | cons e rest =>
    obtain ⟨tr, cnt⟩ := e
    simp only [importEntries, hv, Option.getD_none]
    rw [if_neg (by simp [alookup])]
    have hv1 : aupdate v k (fun inner => aupdate inner tr (· + cnt) 0) [] =
        v ++ [(k, [(tr, cnt)])] := by
      rw [aupdate_absent _ _ hv]
      simp [aupdate]
    have hc1 : aupdate c k (· + cnt) 0 = aset c k (0 + cnt) :=
      aupdate_present _ _ hc
    rw [hv1, hc1]
    simp only [List.map_cons, List.nodup_cons] at hnd
    have hlook : alookup (v ++ [(k, [(tr, cnt)])]) k = some [(tr, cnt)] := by
      rw [alookup_append_none _ hv]
      simp [alookup]
    have hfresh2 : ∀ e ∈ rest, alookup [(tr, cnt)] e.1 = none := by
      intro e he
      have h2 : ¬ tr = e.1 := by
        rintro rfl
        exact hnd.1 (List.mem_map.mpr ⟨e, he, rfl⟩)
      simp [alookup, h2]
    rw [importEntries_go k rest _ _ [(tr, cnt)] (0 + cnt) hlook
      (alookup_aset_self _ _ _) hfresh2 hnd.2]
    have e1 : aset (v ++ [(k, [(tr, cnt)])]) k ([(tr, cnt)] ++ rest) =
        v ++ [(k, (tr, cnt) :: rest)] := by
      rw [aset_append_absent _ _ hv]
      simp
    have e2 : aset (aset c k (0 + cnt)) k (0 + cnt + sumCounts rest) =
        aset c k (sumCounts ((tr, cnt) :: rest)) := by
      rw [aset_aset]
      congr 1
      rw [sumCounts_cons]
      omega
    rw [e1, e2]

theorem alookup_getOrInsertZero_self (c : CountMap) (k : String) :
    alookup (getOrInsertZero c k) k = some ((alookup c k).getD 0) := by
  unfold getOrInsertZero
  cases hac : alookup c k with
  | none =>
    rw [alookup_append_none _ hac]
    simp [alookup]
  | some w => simp [hac]

theorem alookup_getOrInsertZero_other {c : CountMap} {k k' : String} {n : Int}
    (h : alookup c k' = some n) : alookup (getOrInsertZero c k) k' = some n := by
  unfold getOrInsertZero
  cases alookup c k with
  | none => exact alookup_append_some _ h
  | some w => exact h

theorem getOrInsertZero_absent {c : CountMap} {k : String}
    (h : alookup c k = none) : getOrInsertZero c k = c ++ [(k, 0)] := by
  unfold getOrInsertZero
  rw [h]

theorem importRecord_fresh {av : VotesMap} {ac : CountMap} {t : TileMap}
    {r : VoteRecord} {k : String} (hk : hash_tile r.tile = k)
    (hav : alookup av k = none) (hac : alookup ac k = none)
    (ht : alookup t k = some r.tile)
    (hne : r.counts ≠ []) (hnd : (r.counts.map Prod.fst).Nodup) :
    importRecord (av, ac, t) r =
      some (av ++ [(k, r.counts)], ac ++ [(k, sumCounts r.counts)], t) := by
  subst hk
  unfold importRecord
  rw [getOrInsertZero_absent hac]
  have hc0 : alookup (ac ++ [(hash_tile r.tile, 0)]) (hash_tile r.tile) = some 0 := by
    rw [alookup_append_none _ hac]
    simp [alookup]
  rw [if_neg (by simp [hc0])]
  rw [importEntries_fresh _ hav hc0 hne hnd]
  rw [aset_append_absent _ _ hac, aset_lookup_self ht]

theorem importVotesGo_export (v : VotesMap) :
    ∀ (av : VotesMap) (ac : CountMap) (t : TileMap),
    (∀ p ∈ v, alookup av p.1 = none) →
    (∀ p ∈ v, alookup ac p.1 = none) →
    (v.map Prod.fst).Nodup →
    (∀ p ∈ v, ∃ tile, alookup t p.1 = some tile ∧ hash_tile tile = p.1) →
    (∀ p ∈ v, (p.2.map Prod.fst).Nodup ∧ p.2 ≠ []) →
    importVotesGo (av, ac, t) (exportVotes v t) = some (av ++ v, ac ++ totalsOf v, t) := by
  induction v with
  | nil =>
    intro av ac t _ _ _ _ _
    simp [exportVotes, importVotesGo, totalsOf]
  | cons p rest ih =>
    intro av ac t hav hac hnd ht hinner
    obtain ⟨k, es⟩ := p
    obtain ⟨tile, htile, hhash⟩ := ht (k, es) (List.mem_cons_self _ _)
    dsimp only at htile hhash
    have hexp : exportVotes ((k, es) :: rest) t =
        (⟨tile, es⟩ : VoteRecord) :: exportVotes rest t := by
      simp [exportVotes, htile]
    rw [hexp]
    have hinner1 := hinner (k, es) (List.mem_cons_self _ _)
    dsimp only at hinner1
    have hrec := importRecord_fresh (r := ⟨tile, es⟩)
      hhash (hav (k, es) (List.mem_cons_self _ _)) (hac (k, es) (List.mem_cons_self _ _))
      htile hinner1.2 hinner1.1
    simp only [importVotesGo, hrec]
    simp only [List.map_cons, List.nodup_cons] at hnd
    have hne : ∀ p ∈ rest, p.1 ≠ k := by
      intro p hp
      rintro rfl
      exact hnd.1 (List.mem_map.mpr ⟨p, hp, rfl⟩)
    have hav2 : ∀ p ∈ rest, alookup (av ++ [(k, es)]) p.1 = none := by
      intro p hp
      rw [alookup_append_none _ (hav p (List.mem_cons_of_mem _ hp))]
      have hkp : ¬ k = p.1 := fun h => hne p hp h.symm
      simp [alookup, hkp]
    have hac2 : ∀ p ∈ rest, alookup (ac ++ [(k, sumCounts es)]) p.1 = none := by
      intro p hp
      rw [alookup_append_none _ (hac p (List.mem_cons_of_mem _ hp))]
      have hkp : ¬ k = p.1 := fun h => hne p hp h.symm
      simp [alookup, hkp]
    rw [ih _ _ _ hav2 hac2 hnd.2
      (fun p hp => ht p (List.mem_cons_of_mem _ hp))
      (fun p hp => hinner p (List.mem_cons_of_mem _ hp))]
    simp [totalsOf]

theorem roundtrip_of_cinv {v : VotesMap} {c : CountMap} {t : TileMap}
    (h : CInv (v, c, t)) : importVotes (exportVotes v t) t = some (v, c, t) := by
  obtain ⟨hc, hk, hn, hi, hh⟩ := h
  dsimp only at hc hk hn hi hh
  have ht : ∀ p ∈ v, ∃ tile, alookup t p.1 = some tile ∧ hash_tile tile = p.1 := by
    intro p hp
    have hmem : p.1 ∈ t.map Prod.fst := by
      rw [hk]
      exact List.mem_map.mpr ⟨p, hp, rfl⟩
    have hno : ¬ alookup t p.1 = none := by
      rw [alookup_eq_none_iff]
      simpa using hmem
    obtain ⟨tile, htile⟩ := Option.ne_none_iff_exists'.mp hno
    exact ⟨tile, htile, hh (p.1, tile) (alookup_mem htile)⟩
  have hgo := importVotesGo_export v [] [] t
    (fun p _ => rfl) (fun p _ => rfl) hn ht hi
  unfold importVotes
  rw [hgo]
  simp [hc]

/-! ### Failure of import on repeated signatures -/

theorem importVotesGo_append (xs ys : List VoteRecord)
    (st : VotesMap × CountMap × TileMap) :
    importVotesGo st (xs ++ ys) =
      (importVotesGo st xs).bind (fun st' => importVotesGo st' ys) := by
  induction xs generalizing st with
  | nil => simp [importVotesGo]
  | cons r rest ih =>
    simp only [List.cons_append, importVotesGo]
    cases importRecord st r with
    | none => simp
    | some st' => simp [ih]

theorem importEntries_sum {k : String} (es : List (Transform × Int)) :
    ∀ (v : VotesMap) (c : CountMap) (v' : VotesMap) (c' : CountMap) (n : Int),
    importEntries k (v, c) es = some (v', c') → alookup c k = some n →
    alookup c' k = some (n + sumCounts es) := by
  induction es with
  | nil =>
    intro v c v' c' n h hc
    simp only [importEntries, Option.some.injEq, Prod.mk.injEq] at h
    obtain ⟨rfl, rfl⟩ := h
    have h0 : n + sumCounts ([] : List (Transform × Int)) = n := by
      simp [sumCounts_eq_sum]
    rw [h0]
    exact hc
  | cons e rest ih =>
    intro v c v' c' n h hc
    obtain ⟨tr, cnt⟩ := e
    simp only [importEntries] at h
    by_cases hcond : (alookup ((alookup v k).getD []) tr).getD 0 ≠ 0
    · rw [if_pos hcond] at h
      exact absurd h (by simp)
    · rw [if_neg hcond] at h
      have hc1 : alookup (aupdate c k (· + cnt) 0) k = some (n + cnt) := by
        rw [alookup_aupdate_self]
        simp [hc]
      have hres := ih _ _ _ _ (n + cnt) h hc1
      rw [sumCounts_cons]
      have heq : n + (cnt + sumCounts rest) = n + cnt + sumCounts rest := by omega
      rw [heq]
      exact hres

theorem importEntries_other {k k' : String} (hne : k' ≠ k)
    (es : List (Transform × Int)) :
    ∀ (v : VotesMap) (c : CountMap) (v' : VotesMap) (c' : CountMap),
    importEntries k (v, c) es = some (v', c') → alookup c' k' = alookup c k' := by
  induction es with
  | nil =>
    intro v c v' c' h
    simp only [importEntries, Option.some.injEq, Prod.mk.injEq] at h
    obtain ⟨rfl, rfl⟩ := h
    rfl
  | cons e rest ih =>
    intro v c v' c' h
    obtain ⟨tr, cnt⟩ := e
    simp only [importEntries] at h
    by_cases hcond : (alookup ((alookup v k).getD []) tr).getD 0 ≠ 0
    · rw [if_pos hcond] at h
      exact absurd h (by simp)
    · rw [if_neg hcond] at h
      rw [ih _ _ _ _ h]
      exact alookup_aupdate_ne _ _ _ hne

theorem importRecord_sum {st st' : VotesMap × CountMap × TileMap} {r : VoteRecord}
    (h : importRecord st r = some st') :
    alookup st'.2.1 (hash_tile r.tile) = some (sumCounts r.counts) := by
  obtain ⟨v, c, t⟩ := st
  unfold importRecord at h
  rw [alookup_getOrInsertZero_self] at h
  by_cases hguard : ((alookup c (hash_tile r.tile)).getD 0 : Int) ≠ 0
  · rw [if_pos (by simpa using hguard)] at h
    exact absurd h (by simp)
  · rw [if_neg (by simpa using hguard)] at h
    simp only [ne_eq, not_not] at hguard
    have hc0 : alookup (getOrInsertZero c (hash_tile r.tile)) (hash_tile r.tile) =
        some 0 := by
      rw [alookup_getOrInsertZero_self, hguard]
    cases hent : importEntries (hash_tile r.tile)
        (v, getOrInsertZero c (hash_tile r.tile)) r.counts with
    | none =>
      rw [hent] at h
      exact absurd h (by simp)
    | some vc =>
      obtain ⟨v2, c2⟩ := vc
      rw [hent] at h
      simp only [Option.some.injEq] at h
      have hsum := importEntries_sum r.counts _ _ _ _ 0 hent hc0
      rw [← h]
      simpa using hsum

theorem importRecord_other {st st' : VotesMap × CountMap × TileMap} {r : VoteRecord}
    {k : String} {n : Int} (h : importRecord st r = some st')
    (hk : alookup st.2.1 k = some n) (hn : n ≠ 0) :
    alookup st'.2.1 k = some n := by
  obtain ⟨v, c, t⟩ := st
  simp only at hk
  unfold importRecord at h
  rw [alookup_getOrInsertZero_self] at h
  by_cases heq : k = hash_tile r.tile
  · subst heq
    rw [hk] at h
    simp only [Option.getD_some, ne_eq, hn, not_false_eq_true, if_pos] at h
    exact absurd h (by simp)
  · by_cases hguard : ((alookup c (hash_tile r.tile)).getD 0 : Int) ≠ 0
    · rw [if_pos (by simpa using hguard)] at h
      exact absurd h (by simp)
    · rw [if_neg (by simpa using hguard)] at h
      cases hent : importEntries (hash_tile r.tile)
          (v, getOrInsertZero c (hash_tile r.tile)) r.counts with
      | none =>
        rw [hent] at h
        exact absurd h (by simp)
      | some vc =>
        obtain ⟨v2, c2⟩ := vc
        rw [hent] at h
        simp only [Option.some.injEq] at h
        rw [← h]
        simp only
        rw [importEntries_other heq r.counts _ _ _ _ hent]
        exact alookup_getOrInsertZero_other hk

theorem importVotesGo_fails {r2 : VoteRecord} (post : List VoteRecord) :
    ∀ (mid : List VoteRecord) (st : VotesMap × CountMap × TileMap) (n : Int),
    alookup st.2.1 (hash_tile r2.tile) = some n → n ≠ 0 →
    importVotesGo st (mid ++ r2 :: post) = none := by
  intro mid
  induction mid with
  | nil =>
    intro st n hlook hn
    obtain ⟨v, c, t⟩ := st
    simp only at hlook
    simp only [List.nil_append, importVotesGo]
    have hrec : importRecord (v, c, t) r2 = none := by
      unfold importRecord
      rw [alookup_getOrInsertZero_self]
      rw [if_pos (by simp [hlook, hn])]
    rw [hrec]
  | cons m mid ih =>
    intro st n hlook hn
    simp only [List.cons_append, importVotesGo]
    cases hm : importRecord st m with
    | none => rfl
    | some st' => exact ih st' n (importRecord_other hm hlook hn) hn

/-! ### Candidate generation -/

theorem foldl_acc_append {α β : Type} {F : List α → β → List α} (G : β → List α)
    (hF : ∀ acc x, F acc x = acc ++ G x) (xs : List β) (acc : List α) :
    xs.foldl F acc = acc ++ xs.flatMap G := by
  induction xs generalizing acc with
  | nil => simp
  | cons x rest ih =>
    rw [List.foldl_cons, hF, ih, List.flatMap_cons, List.append_assoc]

theorem foldl_acc_single {α β : Type} (f : β → α) (xs : List β) (acc : List α) :
    xs.foldl (fun a x => a ++ [f x]) acc = acc ++ xs.map f := by
  rw [foldl_acc_append (fun x => [f x]) (fun _ _ => rfl)]
  congr 1
  induction xs with
  | nil => rfl
  | cons x rest ih => simp [ih]

theorem consolidatePossibilities_eq (nbs : List Neighborhood) :
    consolidatePossibilities nbs = nbs.flatMap nbCandidates := by
  have hnb : ∀ (acc : List Tile) (nb : Neighborhood),
      nb.s0.foldl (fun acc l0 => nb.s1.foldl (fun acc l1 =>
        nb.s2.foldl (fun acc l2 => nb.s3.foldl (fun acc l3 =>
          acc ++ [⟨-l0, -l1, -l2, -l3⟩]) acc) acc) acc) acc
        = acc ++ nbCandidates nb := by
    intro acc nb
    unfold nbCandidates
    refine foldl_acc_append _ ?_ _ _
    intro acc l0
    refine foldl_acc_append _ ?_ _ _
    intro acc l1
    refine foldl_acc_append _ ?_ _ _
    intro acc l2
    exact foldl_acc_single _ _ _
  unfold consolidatePossibilities
  rw [foldl_acc_append nbCandidates hnb nbs []]
  simp

theorem length_flatMap_const {α β : Type} (xs : List α) (f : α → List β) (c : Nat)
    (h : ∀ x, (f x).length = c) : (xs.flatMap f).length = xs.length * c := by
  induction xs with
  | nil => simp
  | cons x rest ih =>
    simp only [List.flatMap_cons, List.length_append, h, ih, List.length_cons]
    ring

theorem nbCandidates_length (nb : Neighborhood) :
    (nbCandidates nb).length =
      nb.s0.length * nb.s1.length * nb.s2.length * nb.s3.length := by
  have h3 : ∀ l0 l1 : Int,
      ((nb.s2.flatMap (fun l2 => nb.s3.map
        (fun l3 => (⟨-l0, -l1, -l2, -l3⟩ : Tile)))).length)
        = nb.s2.length * nb.s3.length := by
    intro l0 l1
    apply length_flatMap_const
    intro l2
    exact List.length_map _ _
  have h2 : ∀ l0 : Int,
      ((nb.s1.flatMap (fun l1 => nb.s2.flatMap (fun l2 => nb.s3.map
        (fun l3 => (⟨-l0, -l1, -l2, -l3⟩ : Tile))))).length)
        = nb.s1.length * (nb.s2.length * nb.s3.length) := by
    intro l0
    apply length_flatMap_const
    intro l1
    exact h3 l0 l1
  unfold nbCandidates
  rw [length_flatMap_const _ _ _ h2]
  ring

theorem nbCandidates_empty_slot {nb : Neighborhood}
    (h : nb.s0 = [] ∨ nb.s1 = [] ∨ nb.s2 = [] ∨ nb.s3 = []) :
    nbCandidates nb = [] := by
  unfold nbCandidates
  rcases h with h | h | h | h <;>
    simp [h, List.flatMap_eq_nil_iff]

theorem consolidateVotes_congr {a b : List Neighborhood}
    (h : consolidatePossibilities a = consolidatePossibilities b) :
    consolidateVotes a = consolidateVotes b := by
  unfold consolidateVotes
  rw [h]

/-! ### The lexicographic ranking rule -/

theorem gtb_iff (a b : Score) : Score.gtb a b = true ↔
    (b.total_votes < a.total_votes ∨ (a.total_votes = b.total_votes ∧
      (a.flipped_edges < b.flipped_edges ∨ (a.flipped_edges = b.flipped_edges ∧
        b.untransformed_votes < a.untransformed_votes)))) := by
  unfold Score.gtb
  split_ifs <;> simp <;> omega

/-! ### Decoding single-digit signatures -/

theorem decodeTok_pyStr (a : Int) (h1 : -9 ≤ a) (h2 : a ≤ 9) (rest : List Char) :
    decodeTok ((pyStr a).data ++ rest) = some (a, rest) := by
  interval_cases a <;> rfl

theorem pyStr_data_cancel {a b : Int} {ra rb : List Char}
    (ha1 : -9 ≤ a) (ha2 : a ≤ 9) (hb1 : -9 ≤ b) (hb2 : b ≤ 9)
    (h : (pyStr a).data ++ ra = (pyStr b).data ++ rb) : a = b ∧ ra = rb := by
  have h2 := congrArg decodeTok h
  rw [decodeTok_pyStr a ha1 ha2, decodeTok_pyStr b hb1 hb2] at h2
  simp only [Option.some.injEq, Prod.mk.injEq] at h2
  exact h2

theorem hash_tile_inj_small {t1 t2 : Tile} (h1 : smallTile t1) (h2 : smallTile t2)
    (h : hash_tile t1 = hash_tile t2) : t1 = t2 := by
  obtain ⟨a0, b0, c0, d0⟩ := t1
  obtain ⟨a1, b1, c1, d1⟩ := t2
  obtain ⟨p1, p2, p3, p4, p5, p6, p7, p8⟩ := h1
  obtain ⟨q1, q2, q3, q4, q5, q6, q7, q8⟩ := h2
  unfold hash_tile at h
  have hd := congrArg String.data h
  simp only [String.data_append, List.append_assoc] at hd
  obtain ⟨he0, hd⟩ := pyStr_data_cancel p1 p2 q1 q2 hd
  obtain ⟨he1, hd⟩ := pyStr_data_cancel p3 p4 q3 q4 hd
  obtain ⟨he2, hd⟩ := pyStr_data_cancel p5 p6 q5 q6 hd
  have hd4 : (pyStr d0).data ++ ([] : List Char) =
      (pyStr d1).data ++ ([] : List Char) := by
    simpa using hd
  have he3 : d0 = d1 := (pyStr_data_cancel p7 p8 q7 q8 hd4).1
  subst he0
  subst he1
  subst he2
  subst he3
  rfl

/-! ### Claim theorems -/

/-- C1: exporting the consolidated vote map of any neighborhood input to
VoteRecords and re-importing it via `importVotes` succeeds and rebuilds
exactly the same votes map, consolidated counts and tile map, so
`findBest2` returns the identical (best, second-best) selection on the
re-imported data as on the live consolidation. -/
theorem c1_roundtrip_selection (nbs : List Neighborhood) :
    importVotes (exportVotes (consolidateVotes nbs).1 (consolidateVotes nbs).2.2)
        (consolidateVotes nbs).2.2 = some (consolidateVotes nbs) ∧
    (importVotes (exportVotes (consolidateVotes nbs).1 (consolidateVotes nbs).2.2)
        (consolidateVotes nbs).2.2).map
          (fun r => findBest2 r.1 r.2.1 r.2.2) =
      some (findBest2 (consolidateVotes nbs).1 (consolidateVotes nbs).2.1
        (consolidateVotes nbs).2.2) := by
  have h : importVotes
      (exportVotes (consolidateVotes nbs).1 (consolidateVotes nbs).2.2)
      (consolidateVotes nbs).2.2 = some (consolidateVotes nbs) :=
    roundtrip_of_cinv (cinv_consolidateVotes nbs)
  exact ⟨h, by rw [h]; rfl⟩

/-- C2 counterexample: `hash_tile` is not injective on 4-label tiles —
the distinct tiles [1,11,1,1] and [11,1,1,1] share the signature
"11111", refuting the claimed equivalence of signature equality and
element-wise equality. -/
theorem c2_signature_not_injective :
    ¬ (∀ t1 t2 : Tile, hash_tile t1 = hash_tile t2 ↔ t1 = t2) := by
  intro h
  have h1 : hash_tile ⟨1, 11, 1, 1⟩ = hash_tile ⟨11, 1, 1, 1⟩ := rfl
  have h2 : (⟨1, 11, 1, 1⟩ : Tile) = ⟨11, 1, 1, 1⟩ := (h _ _).mp h1
  exact absurd h2 (by decide)

/-- C2 amended: on tiles whose labels all have single-digit magnitude
(each label in [-9, 9]), signature equality holds iff the tiles are
element-wise equal; the unrestricted claim fails because multi-digit
decimal representations concatenate ambiguously. -/
theorem c2_signature_iff_small (t1 t2 : Tile) (h1 : smallTile t1)
    (h2 : smallTile t2) : hash_tile t1 = hash_tile t2 ↔ t1 = t2 := by
  constructor
  · exact hash_tile_inj_small h1 h2
  · rintro rfl
    rfl

/-- C2 witness: the amended equivalence applied to the concrete
single-digit tiles [1,2,-3,4] and [1,2,-3,5]. -/
theorem c2_signature_iff_small_witness :
    smallTile ⟨1, 2, -3, 4⟩ ∧ smallTile ⟨1, 2, -3, 5⟩ ∧
    (hash_tile ⟨1, 2, -3, 4⟩ = hash_tile ⟨1, 2, -3, 5⟩ ↔
      (⟨1, 2, -3, 4⟩ : Tile) = ⟨1, 2, -3, 5⟩) :=
  ⟨by decide, by decide,
    c2_signature_iff_small ⟨1, 2, -3, 4⟩ ⟨1, 2, -3, 5⟩ (by decide) (by decide)⟩

/-- C3: at the concrete consolidation of the single neighborhood
[[0],[0],[0],[0]] all 16 transforms vote for the one signature "0000";
the identity transform's recorded count is 1, yet `findBest2` reports
untransformed_votes = 16 (the signature's consolidated total), because
the source assigns the loop variable `count` instead of `subcount` —
contradicting the specified meaning of untransformedVotes. -/
theorem c3_untransformed_uses_total :
    findBest2 (consolidateVotes [⟨[0], [0], [0], [0]⟩]).1
        (consolidateVotes [⟨[0], [0], [0], [0]⟩]).2.1
        (consolidateVotes [⟨[0], [0], [0], [0]⟩]).2.2 =
      some (some "0000", some ⟨16, 16, 0⟩, none, none) ∧
    alookup ((alookup (consolidateVotes [⟨[0], [0], [0], [0]⟩]).1 "0000").getD [])
        ⟨false, false, 0⟩ = some 1 := by
  constructor
  · decide
  · decide

/-- C4 counterexample: with a neighborhood whose slot 0 has an empty
admissible set, `consolidateVotes` raises no error at all — it returns
exactly the consolidation of the remaining input, and `findBest2` then
produces a normal suggestion from it, refuting the claimed distinct
invalid-input failure. -/
theorem c4_empty_slot_not_fatal :
    consolidateVotes [⟨[], [1], [1], [1]⟩, ⟨[1], [1], [1], [1]⟩] =
      consolidateVotes [⟨[1], [1], [1], [1]⟩] ∧
    (findBest2 (consolidateVotes [⟨[], [1], [1], [1]⟩, ⟨[1], [1], [1], [1]⟩]).1
        (consolidateVotes [⟨[], [1], [1], [1]⟩, ⟨[1], [1], [1], [1]⟩]).2.1
        (consolidateVotes [⟨[], [1], [1], [1]⟩, ⟨[1], [1], [1], [1]⟩]).2.2).isSome := by
  constructor
  · decide
  · decide

/-- C4 amended: a neighborhood with an empty admissible-label slot is
silently skipped — it contributes no candidates, no error is produced,
and the suggestion computation equals the one on the input with that
neighborhood removed. -/
theorem c4_empty_slot_skipped (pre post : List Neighborhood) (nb : Neighborhood)
    (h : nb.s0 = [] ∨ nb.s1 = [] ∨ nb.s2 = [] ∨ nb.s3 = []) :
    consolidateVotes (pre ++ nb :: post) = consolidateVotes (pre ++ post) := by
  apply consolidateVotes_congr
  rw [consolidatePossibilities_eq, consolidatePossibilities_eq]
  simp [List.flatMap_append, nbCandidates_empty_slot h]

/-- C4 witness: the amended statement at a concrete input whose first
neighborhood has an empty slot-0 set. -/
theorem c4_empty_slot_skipped_witness :
    (⟨[], [1], [1], [1]⟩ : Neighborhood).s0 = [] ∧
    consolidateVotes [⟨[], [1], [1], [1]⟩, ⟨[2], [2], [2], [2]⟩] =
      consolidateVotes [⟨[2], [2], [2], [2]⟩] :=
  ⟨rfl, c4_empty_slot_skipped [] [⟨[2], [2], [2], [2]⟩] ⟨[], [1], [1], [1]⟩
    (Or.inl rfl)⟩

/-- C5: the Score comparison of `findBest2` is the strict lexicographic
rule (higher total votes, then fewer flipped edges, then more
untransformed votes), an equal score never beats the incumbent, with
totals (5,5) and flipped-edge counts (1,2) the flipped-count-1 score
wins regardless of the untransformed components, and two concrete
`findBest2` runs confirm the selection and the first-encountered
tie-break. -/
theorem c5_lexicographic_ranking :
    (∀ a b : Score, Score.gtb a b = true ↔
      (b.total_votes < a.total_votes ∨ (a.total_votes = b.total_votes ∧
        (a.flipped_edges < b.flipped_edges ∨ (a.flipped_edges = b.flipped_edges ∧
          b.untransformed_votes < a.untransformed_votes))))) ∧
    (∀ a : Score, Score.gtb a a = false) ∧
    (∀ u1 u2 : Int, Score.gtb ⟨5, u1, 1⟩ ⟨5, u2, 2⟩ = true ∧
      Score.gtb ⟨5, u2, 2⟩ ⟨5, u1, 1⟩ = false) ∧
    findBest2 [("b", [(⟨false, false, 0⟩, 5)]), ("a", [(⟨false, false, 1⟩, 5)])]
        [("b", 5), ("a", 5)] [("a", ⟨-1, 1, 1, 1⟩), ("b", ⟨-1, -1, 1, 1⟩)] =
      some (some "a", some ⟨5, 0, 1⟩, some "b", some ⟨5, 5, 2⟩) ∧
    findBest2 [("x", [(⟨false, false, 1⟩, 3)]), ("y", [(⟨false, false, 1⟩, 3)])]
        [("x", 3), ("y", 3)] [("x", ⟨1, 1, 1, 1⟩), ("y", ⟨1, 1, 1, 1⟩)] =
      some (some "x", some ⟨3, 0, 0⟩, some "y", some ⟨3, 0, 0⟩) := by
  refine ⟨gtb_iff, ?_, ?_, by decide, by decide⟩
  · intro a
    unfold Score.gtb
    simp
  · intro u1 u2
    constructor
    · unfold Score.gtb
      norm_num
    · unfold Score.gtb
      norm_num

/-- C6: `transform_tile` applies, in this fixed order, the flip across X
as [e2,-e1,e0,-e3] when set, then the flip across Y as [-e0,e3,-e2,e1]
when set, then the rotation new[i] = tile[(i+r) mod 4] with no sign
change; it is total over all integer-label tiles and all integer
rotations, and the four rotation residues act as cyclic shifts. -/
theorem c6_transform_tile_formulas :
    (∀ (t : Tile) (tr : Transform),
      transform_tile t tr =
        rotateTile (if tr.flipY then flipYTile (if tr.flipX then flipXTile t else t)
          else (if tr.flipX then flipXTile t else t)) tr.rotation) ∧
    (∀ t : Tile, flipXTile t = ⟨t.e2, -t.e1, t.e0, -t.e3⟩) ∧
    (∀ t : Tile, flipYTile t = ⟨-t.e0, t.e3, -t.e2, t.e1⟩) ∧
    (∀ (t : Tile) (r : Int), rotateTile t r =
      ⟨tileGet t ((0 + r) % 4), tileGet t ((1 + r) % 4),
       tileGet t ((2 + r) % 4), tileGet t ((3 + r) % 4)⟩) ∧
    (∀ t : Tile, rotateTile t 0 = t ∧
      rotateTile t 1 = ⟨t.e1, t.e2, t.e3, t.e0⟩ ∧
      rotateTile t 2 = ⟨t.e2, t.e3, t.e0, t.e1⟩ ∧
      rotateTile t 3 = ⟨t.e3, t.e0, t.e1, t.e2⟩) := by
  have hmod : ∀ (t : Tile) (i : Int), tileGet t (i % 4) = tileGet t i := by
    intro t i
    unfold tileGet
    rw [Int.emod_emod_of_dvd _ (dvd_refl 4)]
  refine ⟨fun t tr => rfl, fun t => rfl, fun t => rfl, ?_, ?_⟩
  · intro t r
    unfold rotateTile
    rw [hmod, hmod, hmod, hmod]
  · intro t
    refine ⟨?_, ?_, ?_, ?_⟩ <;>
      · unfold rotateTile tileGet
        norm_num

/-- C7: the candidate generator equals, for every input, the
per-neighborhood cartesian product with element-wise negation (slot 0
outermost to slot 3 innermost, neighborhoods in input order), a single
neighborhood contributes the product of its four slot sizes, pooling
over neighborhoods is concatenation in input order, and a (2,1,3,1)
neighborhood contributes exactly its 6 candidates in loop order. -/
theorem c7_candidate_generator :
    (∀ nbs : List Neighborhood,
      consolidatePossibilities nbs = nbs.flatMap nbCandidates) ∧
    (∀ nb : Neighborhood, (consolidatePossibilities [nb]).length =
      nb.s0.length * nb.s1.length * nb.s2.length * nb.s3.length) ∧
    (∀ xs ys : List Neighborhood, consolidatePossibilities (xs ++ ys) =
      consolidatePossibilities xs ++ consolidatePossibilities ys) ∧
    consolidatePossibilities [⟨[1, 2], [3], [4, 5, 6], [7]⟩] =
      [⟨-1, -3, -4, -7⟩, ⟨-1, -3, -5, -7⟩, ⟨-1, -3, -6, -7⟩,
       ⟨-2, -3, -4, -7⟩, ⟨-2, -3, -5, -7⟩, ⟨-2, -3, -6, -7⟩] := by
  refine ⟨consolidatePossibilities_eq, ?_, ?_, by decide⟩
  · intro nb
    rw [consolidatePossibilities_eq]
    simp [nbCandidates_length]
  · intro xs ys
    rw [consolidatePossibilities_eq, consolidatePossibilities_eq,
      consolidatePossibilities_eq, List.flatMap_append]

/-- C8: the nested-expansion enumeration `computeAllTransforms` yields
exactly the 16 distinct transforms of the cartesian product of the two
flips and the four rotations, and the direct triple iteration
`computeAllTransforms_check` produces the identical sequence. -/
theorem c8_sixteen_transforms :
    computeAllTransforms = computeAllTransforms_check ∧
    computeAllTransforms.length = 16 ∧
    computeAllTransforms.Nodup ∧
    computeAllTransforms = [false, true].flatMap (fun fx =>
      [false, true].flatMap (fun fy =>
        [0, 1, 2, 3].map (fun rot => ⟨fx, fy, (rot : Int)⟩))) := by
  refine ⟨?_, ?_, ?_, ?_⟩ <;> decide

/-- C9: on every consolidation output the recorded consolidated count of
each signature is exactly the sum of its per-transform counts, and
`findBest2` completes without hitting its fail-loud consistency
assertion or a missing-key failure (it returns a selection). -/
theorem c9_selector_total_on_consolidation (nbs : List Neighborhood) :
    (consolidateVotes nbs).2.1 = totalsOf (consolidateVotes nbs).1 ∧
    (findBest2 (consolidateVotes nbs).1 (consolidateVotes nbs).2.1
      (consolidateVotes nbs).2.2).isSome := by
  obtain ⟨hc, hk, hn, hi, hh⟩ := cinv_consolidateVotes nbs
  refine ⟨hc, ?_⟩
  unfold findBest2
  apply findBest2Go_isSome
  intro kc hkc
  rw [hc] at hkc
  unfold totalsOf at hkc
  obtain ⟨p, hp, rfl⟩ := List.mem_map.mp hkc
  apply scoreOf_isSome hn ?_ hp
  intro k hkm
  have hmem : k ∈ (consolidateVotes nbs).2.2.map Prod.fst := by
    rw [hk]
    exact hkm
  have hno : ¬ alookup (consolidateVotes nbs).2.2 k = none := by
    rw [alookup_eq_none_iff]
    simpa using hmem
  exact Option.ne_none_iff_isSome.mp hno

/-- C10: the `importVotes` loop aborts with its assertion failure on any
record whose tile signature already appeared in an earlier record whose
counts sum to a nonzero total, regardless of the transform lists — in
particular even when the two records carry disjoint transforms, which is
stricter than only rejecting duplicate (signature, transform) pairs. -/
theorem c10_import_rejects_repeated_signature
    (pre mid post : List VoteRecord) (r1 r2 : VoteRecord) (tm : TileMap)
    (hsig : hash_tile r1.tile = hash_tile r2.tile)
    (hnz : sumCounts r1.counts ≠ 0) :
    importVotes (pre ++ r1 :: (mid ++ r2 :: post)) tm = none := by
  unfold importVotes
  rw [importVotesGo_append]
  cases hpre : importVotesGo ([], [], tm) pre with
  | none => rfl
  | some st1 =>
    show importVotesGo st1 (r1 :: (mid ++ r2 :: post)) = none
    simp only [importVotesGo]
    cases hr1 : importRecord st1 r1 with
    | none => rfl
    | some st2 =>
      show importVotesGo st2 (mid ++ r2 :: post) = none
      have hsum := importRecord_sum hr1
      rw [hsig] at hsum
      exact importVotesGo_fails post mid st2 (sumCounts r1.counts) hsum hnz

/-- C10 witness: two records with the same tile [1,1,1,1] but disjoint
transform lists (identity vs flip across X), each with count 1, are
rejected by `importVotes`. -/
theorem c10_import_rejects_witness :
    hash_tile (⟨⟨1, 1, 1, 1⟩, [(⟨false, false, 0⟩, 1)]⟩ : VoteRecord).tile =
      hash_tile (⟨⟨1, 1, 1, 1⟩, [(⟨true, false, 0⟩, 1)]⟩ : VoteRecord).tile ∧
    sumCounts (⟨⟨1, 1, 1, 1⟩, [(⟨false, false, 0⟩, 1)]⟩ : VoteRecord).counts ≠ 0 ∧
    importVotes [⟨⟨1, 1, 1, 1⟩, [(⟨false, false, 0⟩, 1)]⟩,
      ⟨⟨1, 1, 1, 1⟩, [(⟨true, false, 0⟩, 1)]⟩] [] = none :=
  ⟨rfl, by decide,
    c10_import_rejects_repeated_signature [] [] []
      ⟨⟨1, 1, 1, 1⟩, [(⟨false, false, 0⟩, 1)]⟩
      ⟨⟨1, 1, 1, 1⟩, [(⟨true, false, 0⟩, 1)]⟩ [] rfl (by decide)⟩

end TileSuggestion
